import Mathlib

/-!
Shallow embedding of the flow-logger journal-parsing and timing-reconstruction
core (workJournalParser.ts, gitLogParser.ts, sessionReconstructor.ts).

Strings are modelled as List Char.  JS Date instants are modelled as integer
milliseconds since the Unix epoch (Int); the runtime's local timezone is an
explicit offset parameter (milliseconds subtracted from local wall-clock time
to obtain UTC).  A git repository is modelled as the raw output of the
history query (Option: none models a failing command or unreadable
repository, in which case the resolver's try/catch yields the empty map).
Date values that would be a JavaScript Invalid Date (malformed timestamp
text) are modelled as absent, matching the specified line-skipping
behaviour; no claim below depends on such inputs.
-/

namespace FlowLogger

/-- JS whitespace: the characters matched by the regex whitespace class and
trimmed by String.prototype.trim. -/
def jsWs (c : Char) : Bool :=
  c.toNat = 0x09 || c.toNat = 0x0A || c.toNat = 0x0B || c.toNat = 0x0C ||
  c.toNat = 0x0D || c.toNat = 0x20 || c.toNat = 0xA0 || c.toNat = 0x1680 ||
  (0x2000 ≤ c.toNat && c.toNat ≤ 0x200A) ||
  c.toNat = 0x2028 || c.toNat = 0x2029 || c.toNat = 0x202F ||
  c.toNat = 0x205F || c.toNat = 0x3000 || c.toNat = 0xFEFF

/-- JS line terminators (boundaries for multiline anchors and the dot class). -/
def lineTerm (c : Char) : Bool :=
  c.toNat = 0x0A || c.toNat = 0x0D || c.toNat = 0x2028 || c.toNat = 0x2029

def isDigitCh (c : Char) : Bool := '0' ≤ c && c ≤ '9'

def isHexCh (c : Char) : Bool :=
  isDigitCh c || ('a' ≤ c && c ≤ 'f') || ('A' ≤ c && c ≤ 'F')

/-- The backtick character (kept out of literals). -/
def btick : Char := Char.ofNat 96

/-- JS String.prototype.trim. -/
def jsTrim (l : List Char) : List Char :=
  ((l.dropWhile jsWs).reverse.dropWhile jsWs).reverse

/-- Lower-case a JS string (ASCII case folding, as used by toLowerCase on
hex hashes and by the case-insensitive regex flag on ASCII input). -/
def lcList (l : List Char) : List Char := l.map Char.toLower

/-- Case-insensitive prefix test (regex i flag). The pattern is first. -/
def ciPref : List Char → List Char → Bool
  | [], _ => true
  | _ :: _, [] => false
  | a :: as, b :: bs => (a.toLower = b.toLower) && ciPref as bs

/-- Expect a literal at the head of the input, returning the rest. -/
def expectLit (pat l : List Char) : Option (List Char) :=
  if pat.isPrefixOf l then some (l.drop pat.length) else none

/-- JS String.prototype.split with a single-character separator. -/
def splitOnChar (sep : Char) : List Char → List (List Char)
  | [] => [[]]
  | c :: rest =>
    if c = sep then [] :: splitOnChar sep rest
    else
      match splitOnChar sep rest with
      | h :: t => (c :: h) :: t
      | [] => [[c]]

/-- Whether position p of s is a line start for the multiline caret anchor
(position 0, or directly after a line terminator). -/
def lineStartAt (s : List Char) (p : Nat) : Bool :=
  match p with
  | 0 => true
  | q + 1 =>
    match s.get? q with
    | some c => lineTerm c
    | none => false

/-- One-or-more whitespace (greedy with backtracking), then continuation k:
the existential semantics of the regex piece whitespace-plus followed by k. -/
def wsPlusThen (k : List Char → Bool) : List Char → Bool
  | [] => false
  | c :: rest => jsWs c && (k rest || wsPlusThen k rest)

def startsDigit : List Char → Bool
  | [] => false
  | c :: _ => isDigitCh c

def sessionKw : List Char := ['S', 'e', 's', 's', 'i', 'o', 'n']

/-- The part of the session-header pattern after the whitespace following
the two hashes: the Session keyword then whitespace-plus then a digit. -/
def sessionTail (r : List Char) : Bool :=
  sessionKw.isPrefixOf r && wsPlusThen startsDigit (r.drop 7)

/-- Match of the session-header pattern (two hashes, whitespace-plus,
Session, whitespace-plus, a digit) at the head of l.  This is the body of
the splitter regex and of the session-block filter regex. -/
def matchSessionPat (l : List Char) : Bool :=
  match l with
  | c1 :: c2 :: rest =>
    (c1 = '#') && (c2 = '#') && wsPlusThen sessionTail rest
  | _ => false

/-- The session-header regex matches at position p of s (multiline caret). -/
def sessionHeadAt (s : List Char) (p : Nat) : Bool :=
  lineStartAt s p && matchSessionPat (s.drop p)

/-- part.match on the session-header regex: a match anywhere in the part. -/
def hasSessionHead (s : List Char) : Bool :=
  (List.range s.length).any (fun p => sessionHeadAt s p)

/-- All positions of s where the session-header regex matches. -/
def headPositions (s : List Char) : List Nat :=
  (List.range s.length).filter (fun p => sessionHeadAt s p)

/-- JS String.prototype.split splits at every zero-width lookahead match
except one at position 0. -/
def cutPoints (s : List Char) : List Nat :=
  (headPositions s).filter (fun p => p != 0)

/-- Segments of s delimited by the (ascending) cut positions, each segment
running from one cut (or from start) up to the next cut (or to the end). -/
def segmentsAux (s : List Char) : Nat → List Nat → List (List Char)
  | start, [] => [s.drop start]
  | start, p :: rest => ((s.drop start).take (p - start)) :: segmentsAux s p rest

/-- splitIntoSessions from workJournalParser.ts: split on the lookahead
session-header regex, keep only parts that contain a session header, and
return [] when nothing is kept. -/
def splitIntoSessions (s : List Char) : List (List Char) :=
  let parts := segmentsAux s 0 (cutPoints s)
  let kept := parts.filter hasSessionHead
  if kept.length > 0 then kept else []

/-- Spec 4.3, stated from the spec's words: split the document at every
matching session-header line, keeping the heading attached to the block
that follows it; a document with zero such headings yields zero blocks.
Refinement target compared against splitIntoSessions. -/
def sessionSegments (s : List Char) : List (List Char) :=
  match headPositions s with
  | [] => []
  | p :: rest => segmentsAux s p rest

/-- First match of an unanchored regex: try the matcher at each position,
left to right. -/
def scanFirst {α : Type} (f : List Char → Option α) : List Char → Option α
  | [] => f []
  | c :: rest =>
    match f (c :: rest) with
    | some a => some a
    | none => scanFirst f rest

/-- First match of a multiline caret-anchored regex: try the matcher at
every line-start position, left to right.  atLS records whether the
current position is a line start. -/
def scanFirstLS {α : Type} (f : List Char → Option α) : Bool → List Char → Option α
  | atLS, [] => if atLS then f [] else none
  | atLS, c :: rest =>
    match (if atLS then f (c :: rest) else none) with
    | some a => some a
    | none => scanFirstLS f (lineTerm c) rest

/-- Fuel-bounded body of scanAllLS: each step consumes at least one
character, so fuel equal to the input length always suffices and the
zero-fuel branch is unreachable; the fuel only makes the recursion
structural so that concrete instances evaluate. -/
def scanAllLSF {α : Type} (f : List Char → Option (α × Nat)) :
    Nat → Bool → List Char → List α
  | 0, _, _ => []
  | _ + 1, _, [] => []
  | fuel + 1, atLS, c :: rest =>
    match (if atLS then f (c :: rest) else none) with
    | some (a, n) =>
      if 1 ≤ n then
        let consumed := (c :: rest).take n
        let nextLS := match consumed.getLast? with
          | some ch => lineTerm ch
          | none => false
        a :: scanAllLSF f fuel nextLS ((c :: rest).drop n)
      else a :: scanAllLSF f fuel (lineTerm c) rest
    | none => scanAllLSF f fuel (lineTerm c) rest

/-- All matches of a global multiline caret-anchored regex, non-overlapping:
the matcher returns the captured value and the total matched length, and
scanning resumes after each match (matchAll semantics). -/
def scanAllLS {α : Type} (f : List Char → Option (α × Nat)) (atLS : Bool)
    (s : List Char) : List α :=
  scanAllLSF f s.length atLS s

/-- Fuel-bounded body of scanAll (fuel as in scanAllLSF). -/
def scanAllF {α : Type} (f : List Char → Option (α × Nat)) :
    Nat → List Char → List α
  | 0, _ => []
  | _ + 1, [] => []
  | fuel + 1, c :: rest =>
    match f (c :: rest) with
    | some (a, n) =>
      if 1 ≤ n then a :: scanAllF f fuel ((c :: rest).drop n)
      else a :: scanAllF f fuel rest
    | none => scanAllF f fuel rest

/-- All matches of a global unanchored regex, non-overlapping. -/
def scanAll {α : Type} (f : List Char → Option (α × Nat)) (s : List Char) :
    List α :=
  scanAllF f s.length s

/-- Parse exactly n digits into a number (regex fixed-count digit piece). -/
def digitsNAux (acc : Nat) : Nat → List Char → Option (Nat × List Char)
  | 0, l => some (acc, l)
  | _ + 1, [] => none
  | n + 1, c :: rest =>
    if isDigitCh c then digitsNAux (acc * 10 + (c.toNat - 48)) n rest else none

/-- Parse a YYYY-MM-DD shape, returning year, month, day and the rest. -/
def parseYMD (l : List Char) : Option (Int × Nat × Nat × List Char) := do
  let (y, r1) ← digitsNAux 0 4 l
  let r2 ← expectLit ['-'] r1
  let (mo, r3) ← digitsNAux 0 2 r2
  let r4 ← expectLit ['-'] r3
  let (d, r5) ← digitsNAux 0 2 r4
  pure ((y : Int), mo, d, r5)

def isLeap (y : Int) : Bool := (y % 4 = 0 && y % 100 ≠ 0) || y % 400 = 0

def daysInMonth (y : Int) (m : Nat) : Nat :=
  if m = 2 then (if isLeap y then 29 else 28)
  else if m = 4 || m = 6 || m = 9 || m = 11 then 30
  else 31

def validYMD (y : Int) (mo d : Nat) : Bool :=
  1 ≤ mo && mo ≤ 12 && 1 ≤ d && d ≤ daysInMonth y mo

/-- Hours/minutes accepted by the JS ISO date-time parser (24:00 allowed). -/
def validHM (hh mm : Nat) : Bool := (hh ≤ 23 && mm ≤ 59) || (hh = 24 && mm = 0)

/-- Days from the Unix epoch to a proleptic Gregorian civil date
(the standard days-from-civil computation, with explicit floor division
for the era). -/
def daysFromCivil (y : Int) (m d : Nat) : Int :=
  let yi : Int := if m ≤ 2 then y - 1 else y
  let era : Int := (if 0 ≤ yi then yi else yi - 399) / 400
  let yoe : Int := yi - era * 400
  let mp : Int := ((m : Int) + 9) % 12
  let doy : Int := (153 * mp + 2) / 5 + (d : Int) - 1
  let doe : Int := yoe * 365 + yoe / 4 - yoe / 100 + doy
  era * 146097 + doe - 719468

/-- new Date of a template of session date plus a wall-clock HH:MM:00 with no
offset designator: JS interprets it in the runtime's local timezone, modelled
by the explicit offset off (milliseconds).  Returns none where JS would
produce an Invalid Date (date text not a valid YYYY-MM-DD, or out-of-range
time fields). -/
def jsDateLocal (off : Int) (date : List Char) (hh mm : Nat) : Option Int :=
  match parseYMD date with
  | some (y, mo, d, rest) =>
    if rest = [] ∧ validYMD y mo d = true ∧ validHM hh mm = true then
      some (daysFromCivil y mo d * 86400000 + ((hh * 60 + mm : Nat) : Int) * 60000 - off)
    else none
  | none => none

/-- Parse two digits (regex two-digit piece), returning the value and rest. -/
def twoDigits (l : List Char) : Option (Nat × List Char) :=
  match l with
  | a :: b :: rest =>
    if isDigitCh a && isDigitCh b then
      some ((a.toNat - 48) * 10 + (b.toNat - 48), rest)
    else none
  | _ => none

/-- Match of the session-time comment marker at the head of the input,
capturing the two HH:MM groups. -/
def timeAnnAt (l : List Char) : Option (Nat × Nat × Nat × Nat) := do
  let r1 ← expectLit (['<', '!', '-', '-']) l
  let r2 := r1.dropWhile jsWs
  let r3 ← expectLit (("session-time:").toList) r2
  let r4 := r3.dropWhile jsWs
  let (h1, r5) ← twoDigits r4
  let r6 ← expectLit ([':']) r5
  let (m1, r7) ← twoDigits r6
  let r8 ← expectLit (['-']) r7
  let (h2, r9) ← twoDigits r8
  let r10 ← expectLit ([':']) r9
  let (m2, r11) ← twoDigits r10
  let r12 := r11.dropWhile jsWs
  let _ ← expectLit (['-', '-', '>']) r12
  pure (h1, m1, h2, m2)

/-- extractTimeAnnotation from workJournalParser.ts: find the session-time
marker and combine each HH:MM with the session date in the local timezone.
Both times are produced, or neither. -/
def extractTimeAnn (off : Int) (block date : List Char) :
    Option Int × Option Int :=
  match scanFirst timeAnnAt block with
  | none => (none, none)
  | some (h1, m1, h2, m2) =>
    match jsDateLocal off date h1 m1, jsDateLocal off date h2 m2 with
    | some a, some b => (some a, some b)
    | _, _ => (none, none)

/-- Match of a backtick-quoted 7-to-40 character hex token at the head of
the input, returning the hex characters and the total matched length. -/
def commitAt (l : List Char) : Option (List Char × Nat) :=
  match l with
  | c :: rest =>
    if c = btick then
      let k := (rest.takeWhile isHexCh).length
      if 7 ≤ k ∧ k ≤ 40 ∧ (rest.drop k).take 1 = [btick] then
        some (rest.take k, k + 2)
      else none
    else none
  | [] => none

/-- First-seen-order deduplication (spread of a JS Set). -/
def dedupAux (seen : List (List Char)) : List (List Char) → List (List Char)
  | [] => []
  | x :: xs =>
    if seen.contains x then dedupAux seen xs
    else x :: dedupAux (x :: seen) xs

/-- extractCommits from workJournalParser.ts. -/
def extractCommits (block : List Char) : List (List Char) :=
  dedupAux [] ((scanAll commitAt block).filter (fun h => h.all isHexCh))

/-- Backtracking tail of a capture regex: optional whitespace (greedy, at
least wmin characters, at most the current w) followed by a non-empty run
of characters satisfying good (the one-or-more capture class).  Returns
the capture and the whitespace width used. -/
def capTry (good : Char → Bool) (l : List Char) (wmin : Nat) :
    Nat → Option (List Char × Nat)
  | 0 =>
    if 0 < wmin then none
    else
      let cap := l.takeWhile good
      if cap ≠ [] then some (cap, 0) else none
  | w + 1 =>
    if w + 1 < wmin then none
    else
      let cap := (l.drop (w + 1)).takeWhile good
      if cap ≠ [] then some (cap, w + 1)
      else capTry good l wmin w

def capFrom (good : Char → Bool) (l : List Char) (wmin : Nat) :
    Option (List Char × Nat) :=
  let run := (l.takeWhile jsWs).length
  if run < wmin then none else capTry good l wmin run

/-- The dot class of a multiline item regex: any char except a terminator. -/
def notTerm (c : Char) : Bool := !(lineTerm c)

/-- Match of a numbered list item (optional whitespace, digits, a dot,
whitespace, capture to line end) at the head of the input. -/
def numItemAt (l : List Char) : Option (List Char × Nat) :=
  let w := (l.takeWhile jsWs).length
  let l1 := l.drop w
  let d := (l1.takeWhile isDigitCh).length
  if d = 0 then none
  else
    match l1.drop d with
    | '.' :: l2 =>
      match capFrom notTerm l2 1 with
      | some (cap, wu) => some (cap, w + d + 1 + wu + cap.length)
      | none => none
    | _ => none

/-- Match of a bulleted list item (optional whitespace, a dash or star,
whitespace, capture to line end) at the head of the input. -/
def bulItemAt (l : List Char) : Option (List Char × Nat) :=
  let w := (l.takeWhile jsWs).length
  match l.drop w with
  | c :: l2 =>
    if c = '-' || c = '*' then
      match capFrom notTerm l2 1 with
      | some (cap, wu) => some (cap, w + 1 + wu + cap.length)
      | none => none
    else none
  | [] => none

/-- Match of a stand-alone bold line (optional whitespace, double star,
non-star capture, double star) at the head of the input. -/
def boldItemAt (l : List Char) : Option (List Char × Nat) :=
  let w := (l.takeWhile jsWs).length
  match l.drop w with
  | '*' :: '*' :: l2 =>
    let k := (l2.takeWhile (fun c => !(c = '*'))).length
    if 0 < k ∧ (l2.drop k).take 2 = ['*', '*'] then
      some (l2.take k, w + 2 + k + 2)
    else none
  | _ => none

/-- Fuel-bounded body of replaceBold (fuel as in scanAllLSF). -/
def replaceBoldF : Nat → List Char → List Char
  | 0, l => l
  | _ + 1, [] => []
  | fuel + 1, '*' :: '*' :: rest =>
    let k := (rest.takeWhile (fun c => !(c = '*'))).length
    if 0 < k ∧ (rest.drop k).take 2 = ['*', '*'] then
      rest.take k ++ replaceBoldF fuel (rest.drop (k + 2))
    else '*' :: replaceBoldF fuel ('*' :: rest)
  | fuel + 1, c :: rest => c :: replaceBoldF fuel rest

/-- Global replacement of double-star bold spans by their contents. -/
def replaceBold (l : List Char) : List Char := replaceBoldF l.length l

/-- Fuel-bounded body of replaceCode (fuel as in scanAllLSF). -/
def replaceCodeF : Nat → List Char → List Char
  | 0, l => l
  | _ + 1, [] => []
  | fuel + 1, c1 :: rest =>
    if c1 = btick then
      let k := (rest.takeWhile (fun c => !(c = btick))).length
      if 0 < k ∧ (rest.drop k).take 1 = [btick] then
        rest.take k ++ replaceCodeF fuel (rest.drop (k + 1))
      else c1 :: replaceCodeF fuel rest
    else c1 :: replaceCodeF fuel rest

/-- Global replacement of backtick code spans by their contents. -/
def replaceCode (l : List Char) : List Char := replaceCodeF l.length l

/-- cleanItem from workJournalParser.ts: strip bold, strip code, trim. -/
def cleanItem (item : List Char) : List Char :=
  jsTrim (replaceCode (replaceBold item))

/-- Substring containment (JS String.prototype.includes). -/
def isInfixB (pat l : List Char) : Bool :=
  (List.range (l.length + 1)).any (fun p => pat.isPrefixOf (l.drop p))

/-- extractListItems from workJournalParser.ts: numbered items, then
bulleted items, then stand-alone bold lines not already contained in a
captured item. -/
def extractListItems (sec : List Char) : List (List Char) :=
  let nums := (scanAllLS numItemAt true sec).map cleanItem
  let buls := (scanAllLS bulItemAt true sec).map cleanItem
  let base := nums ++ buls
  let bolds := (scanAllLS boldItemAt true sec).map jsTrim
  bolds.foldl
    (fun acc item =>
      if acc.any (fun i => isInfixB item i) then acc else acc ++ [item])
    base

/-- Largest whitespace width k (1 ≤ k ≤ the bound) such that the
case-insensitive name matches right after the k whitespace characters:
greedy backtracking of the whitespace-plus piece before the section name. -/
def tryKDesc (name rest : List Char) : Nat → Option Nat
  | 0 => none
  | k + 1 =>
    if ciPref name (rest.drop (k + 1)) then some (k + 1)
    else tryKDesc name rest k

/-- Match of the section-heading part of the extractSection regex (three
hashes, whitespace-plus, the section name case-insensitively) at the head
of s, returning the matched length. -/
def headMatchLen (name s : List Char) : Option Nat :=
  match s with
  | '#' :: '#' :: '#' :: rest =>
    let run := (rest.takeWhile jsWs).length
    (tryKDesc name rest run).map (fun k => 3 + k + name.length)
  | _ => none

/-- Whether the list starts with two hash characters.  The lookahead of the
extractSection regex succeeds exactly at such a position or at the end of
the input (three hashes begin with two, and two hashes not followed by a
third satisfy the negative lookahead). -/
def twoHashB (l : List Char) : Bool :=
  match l with
  | c1 :: c2 :: _ => c1 = '#' && c2 = '#'
  | _ => false

/-- Length of the lazy dot-star body: characters up to (not including) the
first position where the lookahead succeeds. -/
def sectionBodyLen : List Char → Nat
  | [] => 0
  | c :: rest => if twoHashB (c :: rest) then 0 else 1 + sectionBodyLen rest

def extractSectionAux (name : List Char) : List Char → Option (List Char)
  | [] => none
  | c :: rest =>
    match headMatchLen name (c :: rest) with
    | some hl =>
      some ((c :: rest).take (hl + sectionBodyLen ((c :: rest).drop hl)))
    | none => extractSectionAux name rest

/-- extractSection from workJournalParser.ts: first match of the section
regex (heading plus lazy body up to the lookahead), or none. -/
def extractSection (content name : List Char) : Option (List Char) :=
  extractSectionAux name content

/-- One-or-more whitespace followed by a non-whitespace continuation:
consume the whole whitespace run (deterministic because the regex pieces
that follow all begin with non-whitespace characters). -/
def dropWsPlus (l : List Char) : Option (List Char) :=
  match l with
  | c :: rest => if jsWs c then some (rest.dropWhile jsWs) else none
  | [] => none

/-- Match of the session-number regex (two hashes, whitespace, Session,
whitespace, captured digits) at the head of the input. -/
def sessionNumCapAt (l : List Char) : Option (List Char) := do
  let r1 ← expectLit (['#', '#']) l
  let r2 ← dropWsPlus r1
  let r3 ← expectLit sessionKw r2
  let r4 ← dropWsPlus r3
  let ds := r4.takeWhile isDigitCh
  if ds = [] then none else pure ds

def digitsToNat (ds : List Char) : Nat :=
  ds.foldl (fun n c => n * 10 + (c.toNat - 48)) 0

/-- extractSessionNumber from workJournalParser.ts. -/
def extractSessionNumber (block : List Char) : Option Nat :=
  (scanFirstLS sessionNumCapAt true block).map digitsToNat

/-- Match of the theme regex (session header, a colon, optional whitespace,
capture to line end) at the head of the input. -/
def themeCapAt (l : List Char) : Option (List Char) := do
  let r1 ← expectLit (['#', '#']) l
  let r2 ← dropWsPlus r1
  let r3 ← expectLit sessionKw r2
  let r4 ← dropWsPlus r3
  let ds := r4.takeWhile isDigitCh
  if ds = [] then none
  else
    let r5 := r4.drop ds.length
    let r6 ← expectLit ([':']) r5
    let (cap, _) ← capFrom notTerm r6 0
    pure cap

/-- extractTheme from workJournalParser.ts. -/
def extractTheme (block : List Char) : List Char :=
  match scanFirstLS themeCapAt true block with
  | some c => jsTrim c
  | none => ("(no theme)").toList

/-- The capture class of the project regex: any char except dash and
newline. -/
def notDashNl (c : Char) : Bool := !(c = '-' || c = '\n')

/-- Match of the project regex (hash, whitespace, date, colon, optional
whitespace, capture of non-dash non-newline characters) at the head of
the input. -/
def projCapAt (l : List Char) : Option (List Char) := do
  let r1 ← expectLit (['#']) l
  let r2 ← dropWsPlus r1
  match parseYMD r2 with
  | some (_, _, _, r3) => do
    let r4 ← expectLit ([':']) r3
    let (cap, _) ← capFrom notDashNl r4 0
    pure cap
  | none => none

/-- extractProjectFromHeading from workJournalParser.ts. -/
def extractProjectFromHeading (content : List Char) : List Char :=
  match scanFirstLS projCapAt true content with
  | some c => jsTrim c
  | none => ("General").toList

/-- Match of the content-date regex (hash, whitespace, captured date) at
the head of the input. -/
def dateCapAt (l : List Char) : Option (List Char) := do
  let r1 ← expectLit (['#']) l
  let r2 ← dropWsPlus r1
  match parseYMD r2 with
  | some _ => pure (r2.take 10)
  | none => none

/-- extractDateFromContent from workJournalParser.ts. -/
def extractDateFromContent (content : List Char) : List Char :=
  (scanFirstLS dateCapAt true content).getD (("unknown").toList)

/-- The anchored filename regex: the whole name is a date followed by the
markdown extension; returns the captured date. -/
def filenameDate (fn : List Char) : Option (List Char) :=
  match parseYMD fn with
  | some (_, _, _, rest) =>
    if rest = ['.', 'm', 'd'] then some (fn.take 10) else none
  | none => none

/-- Node path.basename: the last path segment, ignoring trailing slashes. -/
def basenameOf (p : List Char) : List Char :=
  let q := p.reverse.dropWhile (fun c => c = '/')
  (q.takeWhile (fun c => !(c = '/'))).reverse

def DEFAULT_TIMEZONE : List Char := ("America/Los_Angeles").toList

def annotationTag : List Char := ("annotation").toList
def inferredTag : List Char := ("inferred").toList
def commitsTag : List Char := ("commits").toList

/-- The Session record from types.ts. -/
structure Session where
  date : List Char
  sessionNumber : Nat
  project : List Char
  theme : List Char
  startTime : Option Int
  endTime : Option Int
  timezone : List Char
  timingSource : List Char
  commits : List (List Char)
  outcomes : List (List Char)
  learnings : List (List Char)
  sourceFile : List Char
deriving DecidableEq, Repr

/-- extractOutcomes from workJournalParser.ts. -/
def extractOutcomes (block : List Char) : List (List Char) :=
  match extractSection block (("What I Worked On").toList) with
  | none => []
  | some sec => extractListItems sec

/-- extractLearnings from workJournalParser.ts. -/
def extractLearnings (block : List Char) : List (List Char) :=
  match extractSection block (("Learnings").toList) with
  | none => []
  | some sec => extractListItems sec

/-- The per-block body of the sessions.map callback in parseJournalFile. -/
def buildSession (off : Int) (filePath date project : List Char) (idx : Nat)
    (block : List Char) : Session :=
  let sessionNumber := (extractSessionNumber block).getD (idx + 1)
  let t := extractTimeAnn off block date
  { date := date
    sessionNumber := sessionNumber
    project := project
    theme := extractTheme block
    startTime := t.1
    endTime := t.2
    timezone := DEFAULT_TIMEZONE
    timingSource := if t.1.isSome && t.2.isSome then annotationTag else inferredTag
    commits := extractCommits block
    outcomes := extractOutcomes block
    learnings := extractLearnings block
    sourceFile := filePath }

/-- parseJournalFile from workJournalParser.ts, with the file read replaced
by the document text parameter and the runtime local timezone made an
explicit offset parameter. -/
def parseJournal (off : Int) (filePath content : List Char) : List Session :=
  let filename := basenameOf filePath
  let date :=
    match filenameDate filename with
    | some d => d
    | none => extractDateFromContent content
  let project := extractProjectFromHeading content
  let blocks := splitIntoSessions content
  blocks.enum.map (fun ib => buildSession off filePath date project ib.1 ib.2)

/-- The CommitTimestamp record from gitLogParser.ts, with the timestamp an
instant in epoch milliseconds. -/
structure CommitTimestamp where
  hash : List Char
  timestamp : Int
  timezone : List Char
deriving DecidableEq, Repr

/-- Insertion-ordered map (JS Map): set replaces in place or appends. -/
def assocSet {β : Type} (m : List (List Char × β)) (k : List Char) (v : β) :
    List (List Char × β) :=
  match m with
  | [] => [(k, v)]
  | (k', v') :: rest =>
    if k' = k then (k', v) :: rest else (k', v') :: assocSet rest k v

abbrev CtMap := List (List Char × CommitTimestamp)

/-- convertOffsetToTimezone from gitLogParser.ts. -/
def convertOffsetToTimezone (off : List Char) : List Char :=
  if off = ("-08:00").toList then ("America/Los_Angeles").toList
  else if off = ("-07:00").toList then ("America/Denver").toList
  else if off = ("-06:00").toList then ("America/Chicago").toList
  else if off = ("-05:00").toList then ("America/New_York").toList
  else if off = ("-04:00").toList then ("America/New_York").toList
  else if off = ("+00:00").toList then ("UTC").toList
  else if off = ("+01:00").toList then ("Europe/London").toList
  else ("America/Los_Angeles").toList

/-- The trailing UTC-offset group of the timestamp regex: the last six
characters when they have the sign-hh-colon-mm shape. -/
def isoOffsetSuffix (ts : List Char) : Option (List Char) :=
  let n := ts.length
  if 6 ≤ n then
    match ts.drop (n - 6) with
    | s :: h1 :: h2 :: c :: m1 :: m2 :: [] =>
      if (s = '+' || s = '-') && isDigitCh h1 && isDigitCh h2 && c = ':' &&
          isDigitCh m1 && isDigitCh m2 then
        some [s, h1, h2, c, m1, m2]
      else none
    | _ => none
  else none

/-- Hours, minutes and seconds accepted by the JS ISO parser. -/
def validHMS (hh mm ss : Nat) : Bool :=
  (hh ≤ 23 && mm ≤ 59 && ss ≤ 59) || (hh = 24 && mm = 0 && ss = 0)

/-- new Date of an ISO-8601 date-time string as emitted by the history
query (strict ISO, seconds precision): with a trailing offset the instant
is absolute, a trailing Z means UTC, and no designator means the runtime's
local time (the envOff parameter).  none models an Invalid Date. -/
def parseIsoMs (envOff : Int) (ts : List Char) : Option Int := do
  let (y, mo, d, r1) ← parseYMD ts
  let r2 ← expectLit (['T']) r1
  let (hh, r3) ← twoDigits r2
  let r4 ← expectLit ([':']) r3
  let (mm, r5) ← twoDigits r4
  let r6 ← expectLit ([':']) r5
  let (ss, r7) ← twoDigits r6
  if validYMD y mo d = true ∧ validHMS hh mm ss = true then
    let civil : Int :=
      daysFromCivil y mo d * 86400000 + ((hh * 3600 + mm * 60 + ss : Nat) : Int) * 1000
    match r7 with
    | [] => some (civil - envOff)
    | ['Z'] => some civil
    | s :: r8 =>
      if s = '+' || s = '-' then do
        let (oh, r9) ← twoDigits r8
        let r10 ← expectLit ([':']) r9
        let (om, r11) ← twoDigits r10
        if r11 = [] ∧ oh ≤ 23 ∧ om ≤ 59 then
          let offMs : Int := ((oh * 60 + om : Nat) : Int) * 60000
          some (if s = '+' then civil - offMs else civil + offMs)
        else none
      else none
  else none

/-- getCommitTimestamps from gitLogParser.ts.  The repository is modelled
by the raw output of the history query; none models a failing command, in
which case the catch block leaves the result map empty.  Lines whose
timestamp text does not parse are modelled as skipped (spec section 6). -/
def getCommitTimestamps (envOff : Int) (commits : List (List Char))
    (gitOut : Option (List Char)) : CtMap :=
  if commits = [] then []
  else
    match gitOut with
    | none => []
    | some out =>
      let lines := splitOnChar '\n' (jsTrim out)
      let fullMap : List (List Char × (Int × List Char)) :=
        lines.foldl
          (fun fm line =>
            if line = [] then fm
            else
              match splitOnChar ' ' line with
              | fullHash :: isoTs :: _ =>
                if fullHash = [] ∨ isoTs = [] then fm
                else
                  let tz :=
                    match isoOffsetSuffix isoTs with
                    | some o => convertOffsetToTimezone o
                    | none => ("America/Los_Angeles").toList
                  match parseIsoMs envOff isoTs with
                  | some t => assocSet fm fullHash (t, tz)
                  | none => fm
              | _ => fm)
          []
      commits.foldl
        (fun res req =>
          let nr := lcList req
          match fullMap.find? (fun e => nr.isPrefixOf (lcList e.1)) with
          | some e =>
            assocSet res req
              { hash := req, timestamp := e.2.1, timezone := e.2.2 }
          | none => res)
        []

/-- The result record of getSessionTimeRange. -/
structure TimeRange where
  earliest : Option Int
  latest : Option Int
  timezone : List Char
deriving DecidableEq, Repr

/-- One iteration of the getSessionTimeRange loop. -/
def rangeStep (acc : TimeRange) (e : List Char × CommitTimestamp) : TimeRange :=
  let d := e.2
  let acc1 :=
    match acc.earliest with
    | none => { acc with earliest := some d.timestamp, timezone := d.timezone }
    | some ea =>
      if d.timestamp < ea then
        { acc with earliest := some d.timestamp, timezone := d.timezone }
      else acc
  match acc1.latest with
  | none => { acc1 with latest := some d.timestamp }
  | some la =>
    if la < d.timestamp then { acc1 with latest := some d.timestamp } else acc1

/-- getSessionTimeRange from gitLogParser.ts. -/
def getSessionTimeRange (m : CtMap) : TimeRange :=
  m.foldl rangeStep
    { earliest := none, latest := none, timezone := ("America/Los_Angeles").toList }

/-- ReconstructConfig from sessionReconstructor.ts (all fields optional). -/
structure ReconstructConfig where
  repoPath : Option (List Char) := none
  defaultDurationMinutes : Option Int := none
  preCommitBufferMinutes : Option Int := none
  postCommitBufferMinutes : Option Int := none

/-- The process environment seen by the reconstructor: the working
directory (the default repository path), the runtime local-timezone offset
in milliseconds, and the repository query (repository path to raw history
output; none models a failing query). -/
structure GitWorld where
  cwd : List Char
  envOffMs : Int
  gitLog : List Char → Option (List Char)

/-- reconstructSessionTiming from sessionReconstructor.ts.  The spread of
DEFAULT_CONFIG under the caller's partial config is modelled by getD with
the source's default values (repoPath defaulting to the working
directory, buffers defaulting to 15 and 5 minutes). -/
def reconstructSessionTiming (w : GitWorld) (s : Session)
    (cfg : ReconstructConfig) : Session :=
  let repoPath := cfg.repoPath.getD w.cwd
  let pre : Int := cfg.preCommitBufferMinutes.getD 15
  let post : Int := cfg.postCommitBufferMinutes.getD 5
  if s.startTime.isSome && s.endTime.isSome then s
  else if s.commits ≠ [] ∧ repoPath ≠ [] then
    let timestamps := getCommitTimestamps w.envOffMs s.commits (w.gitLog repoPath)
    if timestamps ≠ [] then
      let r := getSessionTimeRange timestamps
      match r.earliest, r.latest with
      | some e, some l =>
        { s with
          startTime := some (e - pre * 60 * 1000)
          endTime := some (l + post * 60 * 1000)
          timezone := r.timezone }
      | _, _ => s
    else s
  else s

/-- reconstructAllSessions from sessionReconstructor.ts. -/
def reconstructAllSessions (w : GitWorld) (sessions : List Session)
    (cfg : ReconstructConfig) : List Session :=
  sessions.map (fun s => reconstructSessionTiming w s cfg)

/-- The spec's date fallback chain, stated from the spec's words (claim on
the session date): filename first, then the first top-level heading date,
then the unknown sentinel. -/
def claimedDate (filename content : List Char) : List Char :=
  match filenameDate filename with
  | some d => d
  | none => extractDateFromContent content

/- Concrete instances used by witnesses and counterexamples. -/

/-- A two-commit history output with full hashes and strict ISO stamps. -/
def exGitOut : List Char :=
  ("0ba4e91aaaaaaaaaaaaaaaaaaaaaaaaaaaaaaaaa 2026-01-15T10:30:00-08:00\nfff1234aaaaaaaaaaaaaaaaaaaaaaaaaaaaaaaaa 2026-01-15T11:45:05-08:00").toList

def exRepoPath : List Char := ("/repo").toList

/-- A world whose repository at /repo resolves to exGitOut. -/
def exWorld : GitWorld :=
  { cwd := exRepoPath, envOffMs := 0,
    gitLog := fun p => if p = exRepoPath then some exGitOut else none }

/-- A world where every repository query fails. -/
def worldNone : GitWorld :=
  { cwd := ("/none").toList, envOffMs := 0, gitLog := fun _ => none }

/-- A session with one commit reference and no timing. -/
def exCommitSession : Session :=
  { date := ("2026-01-15").toList, sessionNumber := 1,
    project := ("General").toList, theme := ("(no theme)").toList,
    startTime := none, endTime := none, timezone := DEFAULT_TIMEZONE,
    timingSource := inferredTag, commits := [("0ba4e91").toList],
    outcomes := [], learnings := [], sourceFile := ("j.md").toList }

/-- A session that already carries explicit timing. -/
def exAnnSession : Session :=
  { exCommitSession with
    startTime := some 100
    endTime := some 200
    timingSource := annotationTag }

/-- A one-entry resolved map. -/
def exMapC6 : CtMap :=
  [(("a").toList,
    { hash := ("a").toList, timestamp := 5, timezone := ("UTC").toList })]

/-- A document whose single annotation runs backwards across midnight. -/
def doc10 : List Char :=
  ("# 2026-01-15: P\n## Session 1: X\n<!-- session-time: 23:00-01:00 -->").toList

def fp10 : List Char := ("2026-01-15.md").toList

/-- The session parsed from doc10 at local offset 0. -/
def s10 : Session :=
  { date := ("2026-01-15").toList, sessionNumber := 1,
    project := ("P").toList, theme := ("X").toList,
    startTime := some 1768518000000, endTime := some 1768438800000,
    timezone := DEFAULT_TIMEZONE, timingSource := annotationTag,
    commits := [], outcomes := [], learnings := [], sourceFile := fp10 }

/-- A document with no session headings at all. -/
def docEmpty : List Char := ("# 2026-01-15: Notes\nNothing here.").toList

/-- A section whose body contains a deeper (level-4) heading. -/
def docSec : List Char := ("### Learnings\n- a\n#### Deep\n- b").toList

def learningsName : List Char := ("Learnings").toList

/-- What extractSection actually returns on docSec: the body stops right
before the level-4 heading. -/
def secResC3 : List Char := ("### Learnings\n- a\n").toList

end FlowLogger

namespace FlowLogger

/- Helper lemmas. -/

/-- extractTimeAnn produces both times or neither. -/
theorem extractTimeAnn_both (off : Int) (block date : List Char) :
    (extractTimeAnn off block date).1.isSome =
      (extractTimeAnn off block date).2.isSome := by
  unfold extractTimeAnn
  split
  · rfl
  · split
    · rfl
    · rfl

/-- reconstructSessionTiming either returns its input or updates exactly
the startTime, endTime and timezone fields with both times present. -/
theorem reconstruct_shape (w : GitWorld) (s : Session) (cfg : ReconstructConfig) :
    reconstructSessionTiming w s cfg = s ∨
    ∃ a b tz, reconstructSessionTiming w s cfg =
      { s with startTime := some a, endTime := some b, timezone := tz } := by
  unfold reconstructSessionTiming
  dsimp only
  split
  · exact Or.inl rfl
  · split
    · split
      · split
        · exact Or.inr ⟨_, _, _, rfl⟩
        · exact Or.inl rfl
      · exact Or.inl rfl
    · exact Or.inl rfl

/- Claim theorems. -/

/-- C5: when the repository cannot be read (missing path, not a repository,
or a failing history command, all modelled by the query returning none),
getCommitTimestamps returns the empty mapping for every input list; the
embedding is a total pure function, so no exception reaches the caller and
the input list is not mutated. -/
theorem c5_resolver_unreadable_empty (envOff : Int) (commits : List (List Char)) :
    getCommitTimestamps envOff commits none = [] := by
  unfold getCommitTimestamps
  split <;> rfl

/-- C7: a session that already has both startTime and endTime is returned
unchanged by reconstructSessionTiming under any configuration and any
world, and applying the reconstruction twice yields the identical session. -/
theorem c7_annotated_unchanged_idempotent (w w2 : GitWorld) (s : Session)
    (cfg cfg2 : ReconstructConfig) (h1 : s.startTime.isSome = true)
    (h2 : s.endTime.isSome = true) :
    reconstructSessionTiming w s cfg = s ∧
    reconstructSessionTiming w2 (reconstructSessionTiming w s cfg) cfg2 =
      reconstructSessionTiming w s cfg := by
  have hfix : ∀ (w' : GitWorld) (cfg' : ReconstructConfig),
      reconstructSessionTiming w' s cfg' = s := by
    intro w' cfg'
    unfold reconstructSessionTiming
    simp [h1, h2]
  refine ⟨hfix w cfg, ?_⟩
  rw [hfix w cfg]
  exact hfix w2 cfg2

/-- C9: reconstructSessionTiming agrees with its input on date,
sessionNumber, project, theme, commits, outcomes, learnings and
sourceFile: only the timing fields can change. -/
theorem c9_frame_fields (w : GitWorld) (s : Session) (cfg : ReconstructConfig) :
    (reconstructSessionTiming w s cfg).date = s.date ∧
    (reconstructSessionTiming w s cfg).sessionNumber = s.sessionNumber ∧
    (reconstructSessionTiming w s cfg).project = s.project ∧
    (reconstructSessionTiming w s cfg).theme = s.theme ∧
    (reconstructSessionTiming w s cfg).commits = s.commits ∧
    (reconstructSessionTiming w s cfg).outcomes = s.outcomes ∧
    (reconstructSessionTiming w s cfg).learnings = s.learnings ∧
    (reconstructSessionTiming w s cfg).sourceFile = s.sourceFile := by
  rcases reconstruct_shape w s cfg with h | ⟨a, b, tz, h⟩ <;> rw [h] <;> simp

/-- C2: every session produced by the parser has startTime defined exactly
when endTime is defined, and reconstructSessionTiming preserves that
invariant under any configuration and world. -/
theorem c2_timing_both_or_neither :
    (∀ (off : Int) (fp content : List Char) (s : Session),
        s ∈ parseJournal off fp content →
        (s.startTime.isSome ↔ s.endTime.isSome)) ∧
    (∀ (w : GitWorld) (s : Session) (cfg : ReconstructConfig),
        (s.startTime.isSome ↔ s.endTime.isSome) →
        ((reconstructSessionTiming w s cfg).startTime.isSome ↔
          (reconstructSessionTiming w s cfg).endTime.isSome)) := by
  constructor
  · intro off fp content s hs
    unfold parseJournal at hs
    simp only [List.mem_map] at hs
    obtain ⟨ib, _, rfl⟩ := hs
    simp only [buildSession]
    rw [extractTimeAnn_both]
  · intro w s cfg h
    rcases reconstruct_shape w s cfg with hr | ⟨a, b, tz, hr⟩ <;> rw [hr]
    · exact h
    · simp

/-- C2 witness at a concrete parsed session and a concrete annotated
session. -/
theorem c2_witness :
    (s10.startTime.isSome ↔ s10.endTime.isSome) ∧
    ((reconstructSessionTiming worldNone exAnnSession {}).startTime.isSome ↔
      (reconstructSessionTiming worldNone exAnnSession {}).endTime.isSome) :=
  ⟨c2_timing_both_or_neither.1 0 fp10 doc10 s10
      (by rw [show parseJournal 0 fp10 doc10 = [s10] from rfl]; simp),
   c2_timing_both_or_neither.2 worldNone exAnnSession {} (by decide)⟩

/-- C7 witness at a concrete annotated session. -/
theorem c7_witness :
    exAnnSession.startTime.isSome = true ∧ exAnnSession.endTime.isSome = true ∧
    (reconstructSessionTiming worldNone exAnnSession {} = exAnnSession ∧
      reconstructSessionTiming worldNone
          (reconstructSessionTiming worldNone exAnnSession {}) {} =
        reconstructSessionTiming worldNone exAnnSession {}) :=
  ⟨rfl, rfl,
   c7_annotated_unchanged_idempotent worldNone worldNone exAnnSession {} {} rfl rfl⟩

/-- C8: the date of every parsed session follows the fallback chain:
a date extracted from the file name, else a date extracted from the first
top-level heading, else the unknown sentinel. -/
theorem c8_date_fallback (off : Int) (fp content : List Char) (s : Session)
    (hs : s ∈ parseJournal off fp content) :
    s.date = claimedDate (basenameOf fp) content := by
  unfold parseJournal at hs
  simp only [List.mem_map] at hs
  obtain ⟨ib, _, rfl⟩ := hs
  rfl

/-- C8 witness at a concrete file name and document. -/
theorem c8_witness : s10.date = claimedDate (basenameOf fp10) doc10 :=
  c8_date_fallback 0 fp10 doc10 s10
    (by rw [show parseJournal 0 fp10 doc10 = [s10] from rfl]; simp)

/-- C10: the parser performs no ordering validation on time annotations:
for the concrete session block whose annotation is 23:00-01:00, parse
returns (for every local-timezone offset) a session whose endTime is
strictly earlier than its startTime, with timingSource still annotation. -/
theorem c10_no_ordering_validation (off : Int) :
    ∃ s : Session, parseJournal off fp10 doc10 = [s] ∧
      ∃ a b, s.startTime = some a ∧ s.endTime = some b ∧ b < a ∧
        s.timingSource = annotationTag := by
  have h : (parseJournal off fp10 doc10).map
      (fun s => (s.startTime, s.endTime, s.timingSource)) =
      [(some (1768518000000 - off), some (1768438800000 - off), annotationTag)] := rfl
  obtain ⟨s, t, hp⟩ : ∃ s t, parseJournal off fp10 doc10 = s :: t := by
    cases hq : parseJournal off fp10 doc10 with
    | nil => rw [hq] at h; exact absurd h (by simp)
    | cons a b => exact ⟨a, b, rfl⟩
  rw [hp] at h
  cases t with
  | cons a b => exact absurd h (by simp)
  | nil =>
    simp only [List.map_cons, List.map_nil, List.cons.injEq, and_true,
      Prod.mk.injEq] at h
    obtain ⟨h1, h2, h3⟩ := h
    exact ⟨s, hp, 1768518000000 - off, 1768438800000 - off, h1, h2, by omega, h3⟩

/- Fold lemmas for getSessionTimeRange. -/

/-- One range step keeps the earliest field defined and can only lower it;
the new earliest is also bounded by the incoming timestamp. -/
theorem rangeStep_e_some (acc : TimeRange) (x : List Char × CommitTimestamp)
    (e0 : Int) (h : acc.earliest = some e0) :
    ∃ e1, (rangeStep acc x).earliest = some e1 ∧ e1 ≤ e0 ∧
      e1 ≤ x.2.timestamp := by
  obtain ⟨ae, al, atz⟩ := acc
  replace h : ae = some e0 := h
  subst h
  unfold rangeStep
  dsimp only
  by_cases hlt : x.2.timestamp < e0
  · rw [if_pos hlt]
    refine ⟨x.2.timestamp, ?_, by omega, le_refl _⟩
    cases al with
    | none => rfl
    | some la => dsimp only; split <;> rfl
  · rw [if_neg hlt]
    refine ⟨e0, ?_, le_refl _, by omega⟩
    cases al with
    | none => rfl
    | some la => dsimp only; split <;> rfl

/-- One range step from an undefined earliest installs the incoming
timestamp and timezone. -/
theorem rangeStep_e_none (acc : TimeRange) (x : List Char × CommitTimestamp)
    (h : acc.earliest = none) :
    (rangeStep acc x).earliest = some x.2.timestamp ∧
    (rangeStep acc x).timezone = x.2.timezone := by
  obtain ⟨ae, al, atz⟩ := acc
  replace h : ae = none := h
  subst h
  unfold rangeStep
  dsimp only
  cases al with
  | none => exact ⟨rfl, rfl⟩
  | some la => dsimp only; split <;> exact ⟨rfl, rfl⟩

/-- One range step either keeps earliest and timezone or installs the
incoming timestamp and timezone. -/
theorem rangeStep_e_src (acc : TimeRange) (x : List Char × CommitTimestamp) :
    ((rangeStep acc x).earliest = acc.earliest ∧
      (rangeStep acc x).timezone = acc.timezone) ∨
    ((rangeStep acc x).earliest = some x.2.timestamp ∧
      (rangeStep acc x).timezone = x.2.timezone) := by
  obtain ⟨ae, al, atz⟩ := acc
  unfold rangeStep
  dsimp only
  cases ae with
  | none =>
    right
    cases al with
    | none => exact ⟨rfl, rfl⟩
    | some la => dsimp only; split <;> exact ⟨rfl, rfl⟩
  | some ea =>
    dsimp only
    by_cases hlt : x.2.timestamp < ea
    · rw [if_pos hlt]
      right
      cases al with
      | none => exact ⟨rfl, rfl⟩
      | some la => dsimp only; split <;> exact ⟨rfl, rfl⟩
    · rw [if_neg hlt]
      left
      cases al with
      | none => exact ⟨rfl, rfl⟩
      | some la => dsimp only; split <;> exact ⟨rfl, rfl⟩

/-- One range step keeps the latest field defined and can only raise it;
the new latest is also at least the incoming timestamp. -/
theorem rangeStep_l_some (acc : TimeRange) (x : List Char × CommitTimestamp)
    (l0 : Int) (h : acc.latest = some l0) :
    ∃ l1, (rangeStep acc x).latest = some l1 ∧ l0 ≤ l1 ∧
      x.2.timestamp ≤ l1 := by
  obtain ⟨ae, al, atz⟩ := acc
  replace h : al = some l0 := h
  subst h
  unfold rangeStep
  dsimp only
  cases ae with
  | none =>
    dsimp only
    by_cases hlt : l0 < x.2.timestamp
    · rw [if_pos hlt]; exact ⟨x.2.timestamp, rfl, by omega, le_refl _⟩
    · rw [if_neg hlt]; exact ⟨l0, rfl, le_refl _, by omega⟩
  | some ea =>
    dsimp only
    by_cases hee : x.2.timestamp < ea
    · rw [if_pos hee]
      dsimp only
      by_cases hlt : l0 < x.2.timestamp
      · rw [if_pos hlt]; exact ⟨x.2.timestamp, rfl, by omega, le_refl _⟩
      · rw [if_neg hlt]; exact ⟨l0, rfl, le_refl _, by omega⟩
    · rw [if_neg hee]
      dsimp only
      by_cases hlt : l0 < x.2.timestamp
      · rw [if_pos hlt]; exact ⟨x.2.timestamp, rfl, by omega, le_refl _⟩
      · rw [if_neg hlt]; exact ⟨l0, rfl, le_refl _, by omega⟩

/-- One range step from an undefined latest installs the incoming
timestamp. -/
theorem rangeStep_l_none (acc : TimeRange) (x : List Char × CommitTimestamp)
    (h : acc.latest = none) :
    (rangeStep acc x).latest = some x.2.timestamp := by
  obtain ⟨ae, al, atz⟩ := acc
  replace h : al = none := h
  subst h
  unfold rangeStep
  dsimp only
  cases ae with
  | none => rfl
  | some ea =>
    dsimp only
    by_cases hee : x.2.timestamp < ea
    · rw [if_pos hee]
    · rw [if_neg hee]

/-- One range step either keeps latest or installs the incoming
timestamp. -/
theorem rangeStep_l_src (acc : TimeRange) (x : List Char × CommitTimestamp) :
    (rangeStep acc x).latest = acc.latest ∨
    (rangeStep acc x).latest = some x.2.timestamp := by
  obtain ⟨ae, al, atz⟩ := acc
  unfold rangeStep
  dsimp only
  cases ae with
  | none =>
    cases al with
    | none => exact Or.inr rfl
    | some la =>
      dsimp only
      split
      · exact Or.inr rfl
      · exact Or.inl rfl
  | some ea =>
    dsimp only
    by_cases hee : x.2.timestamp < ea
    · rw [if_pos hee]
      cases al with
      | none => exact Or.inr rfl
      | some la =>
        dsimp only
        split
        · exact Or.inr rfl
        · exact Or.inl rfl
    · rw [if_neg hee]
      cases al with
      | none => exact Or.inr rfl
      | some la =>
        dsimp only
        split
        · exact Or.inr rfl
        · exact Or.inl rfl

/-- The range fold keeps earliest defined and only lowers it. -/
theorem fold_e_mono (l : CtMap) :
    ∀ (acc : TimeRange) (e0 : Int), acc.earliest = some e0 →
    ∃ e, (l.foldl rangeStep acc).earliest = some e ∧ e ≤ e0 := by
  induction l with
  | nil => exact fun acc e0 h => ⟨e0, h, le_refl _⟩
  | cons x xs ih =>
    intro acc e0 h
    obtain ⟨e1, h1, h1a, _⟩ := rangeStep_e_some acc x e0 h
    obtain ⟨e, he, hea⟩ := ih (rangeStep acc x) e1 h1
    exact ⟨e, by simpa using he, le_trans hea h1a⟩

/-- The range fold bounds earliest by every member's timestamp. -/
theorem fold_e_lb (l : CtMap) :
    ∀ (acc : TimeRange) (c : List Char × CommitTimestamp), c ∈ l →
    ∃ e, (l.foldl rangeStep acc).earliest = some e ∧ e ≤ c.2.timestamp := by
  induction l with
  | nil => intro _ _ h; exact absurd h (List.not_mem_nil _)
  | cons x xs ih =>
    intro acc c hc
    rcases List.mem_cons.mp hc with rfl | hc
    · have h1 : ∃ e1, (rangeStep acc c).earliest = some e1 ∧
          e1 ≤ c.2.timestamp := by
        rcases hae : acc.earliest with _ | ea
        · obtain ⟨h, _⟩ := rangeStep_e_none acc c hae
          exact ⟨c.2.timestamp, h, le_refl _⟩
        · obtain ⟨e1, h, _, hb⟩ := rangeStep_e_some acc c ea hae
          exact ⟨e1, h, hb⟩
      obtain ⟨e1, h1e, h1b⟩ := h1
      obtain ⟨e, he, hea⟩ := fold_e_mono xs (rangeStep acc c) e1 h1e
      exact ⟨e, by simpa using he, le_trans hea h1b⟩
    · exact (by simpa using ih (rangeStep acc x) c hc)

/-- The range fold's earliest and timezone come from the accumulator or
from some member of the list, as one pair. -/
theorem fold_e_src (l : CtMap) :
    ∀ acc : TimeRange,
    ((l.foldl rangeStep acc).earliest = acc.earliest ∧
      (l.foldl rangeStep acc).timezone = acc.timezone) ∨
    ∃ c ∈ l, (l.foldl rangeStep acc).earliest = some c.2.timestamp ∧
      (l.foldl rangeStep acc).timezone = c.2.timezone := by
  induction l with
  | nil => exact fun acc => Or.inl ⟨rfl, rfl⟩
  | cons x xs ih =>
    intro acc
    rcases ih (rangeStep acc x) with ⟨h1, h2⟩ | ⟨c, hc, h1, h2⟩
    · rcases rangeStep_e_src acc x with ⟨g1, g2⟩ | ⟨g1, g2⟩
      · exact Or.inl ⟨by simpa [g1] using h1, by simpa [g2] using h2⟩
      · exact Or.inr ⟨x, List.mem_cons_self .., by simpa [g1] using h1,
          by simpa [g2] using h2⟩
    · exact Or.inr ⟨c, List.mem_cons_of_mem _ hc, by simpa using h1,
        by simpa using h2⟩

/-- The range fold keeps latest defined and only raises it. -/
theorem fold_l_mono (l : CtMap) :
    ∀ (acc : TimeRange) (l0 : Int), acc.latest = some l0 →
    ∃ la, (l.foldl rangeStep acc).latest = some la ∧ l0 ≤ la := by
  induction l with
  | nil => exact fun acc l0 h => ⟨l0, h, le_refl _⟩
  | cons x xs ih =>
    intro acc l0 h
    obtain ⟨l1, h1, h1a, _⟩ := rangeStep_l_some acc x l0 h
    obtain ⟨la, hla, hab⟩ := ih (rangeStep acc x) l1 h1
    exact ⟨la, by simpa using hla, le_trans h1a hab⟩

/-- The range fold bounds every member's timestamp by latest. -/
theorem fold_l_ub (l : CtMap) :
    ∀ (acc : TimeRange) (c : List Char × CommitTimestamp), c ∈ l →
    ∃ la, (l.foldl rangeStep acc).latest = some la ∧ c.2.timestamp ≤ la := by
  induction l with
  | nil => intro _ _ h; exact absurd h (List.not_mem_nil _)
  | cons x xs ih =>
    intro acc c hc
    rcases List.mem_cons.mp hc with rfl | hc
    · have h1 : ∃ l1, (rangeStep acc c).latest = some l1 ∧
          c.2.timestamp ≤ l1 := by
        rcases hal : acc.latest with _ | la
        · exact ⟨c.2.timestamp, rangeStep_l_none acc c hal, le_refl _⟩
        · obtain ⟨l1, h, _, hb⟩ := rangeStep_l_some acc c la hal
          exact ⟨l1, h, hb⟩
      obtain ⟨l1, h1l, h1b⟩ := h1
      obtain ⟨la, hla, hab⟩ := fold_l_mono xs (rangeStep acc c) l1 h1l
      exact ⟨la, by simpa using hla, le_trans h1b hab⟩
    · exact (by simpa using ih (rangeStep acc x) c hc)

/-- The range fold's latest comes from the accumulator or from some member
of the list. -/
theorem fold_l_src (l : CtMap) :
    ∀ acc : TimeRange,
    (l.foldl rangeStep acc).latest = acc.latest ∨
    ∃ c ∈ l, (l.foldl rangeStep acc).latest = some c.2.timestamp := by
  induction l with
  | nil => exact fun acc => Or.inl rfl
  | cons x xs ih =>
    intro acc
    rcases ih (rangeStep acc x) with h1 | ⟨c, hc, h1⟩
    · rcases rangeStep_l_src acc x with g1 | g1
      · exact Or.inl (by simpa [g1] using h1)
      · exact Or.inr ⟨x, List.mem_cons_self .., by simpa [g1] using h1⟩
    · exact Or.inr ⟨c, List.mem_cons_of_mem _ hc, by simpa using h1⟩

/-- The range fold from a both-defined accumulator: bounds, attainment and
timezone provenance, all at once. -/
theorem fold_full (xs : CtMap) (t0 : Int) (tz0 : List Char) :
    ∃ e la,
      (List.foldl rangeStep
        { earliest := some t0, latest := some t0, timezone := tz0 } xs).earliest
          = some e ∧
      (List.foldl rangeStep
        { earliest := some t0, latest := some t0, timezone := tz0 } xs).latest
          = some la ∧
      e ≤ t0 ∧ t0 ≤ la ∧
      (∀ c ∈ xs, e ≤ c.2.timestamp ∧ c.2.timestamp ≤ la) ∧
      ((e = t0 ∧
          (List.foldl rangeStep
            { earliest := some t0, latest := some t0, timezone := tz0 } xs).timezone
              = tz0) ∨
        ∃ c ∈ xs, c.2.timestamp = e ∧ c.2.timezone =
          (List.foldl rangeStep
            { earliest := some t0, latest := some t0, timezone := tz0 } xs).timezone) ∧
      (la = t0 ∨ ∃ c ∈ xs, c.2.timestamp = la) := by
  obtain ⟨e, he, hee⟩ := fold_e_mono xs
    { earliest := some t0, latest := some t0, timezone := tz0 } t0 rfl
  obtain ⟨la, hla, hll⟩ := fold_l_mono xs
    { earliest := some t0, latest := some t0, timezone := tz0 } t0 rfl
  refine ⟨e, la, he, hla, hee, hll, ?_, ?_, ?_⟩
  · intro c hc
    obtain ⟨e', he', heb⟩ := fold_e_lb xs
      { earliest := some t0, latest := some t0, timezone := tz0 } c hc
    obtain ⟨l', hl', hlb⟩ := fold_l_ub xs
      { earliest := some t0, latest := some t0, timezone := tz0 } c hc
    have h1 : e = e' := Option.some.inj (he.symm.trans he')
    have h2 : la = l' := Option.some.inj (hla.symm.trans hl')
    exact ⟨h1 ▸ heb, h2 ▸ hlb⟩
  · rcases fold_e_src xs
      { earliest := some t0, latest := some t0, timezone := tz0 } with
      ⟨h1, h2⟩ | ⟨c, hc, h1, h2⟩
    · left
      have h3 : some e = some t0 := he.symm.trans h1
      exact ⟨Option.some.inj h3, h2⟩
    · right
      have h3 : some e = some c.2.timestamp := he.symm.trans h1
      exact ⟨c, hc, (Option.some.inj h3).symm, h2.symm⟩
  · rcases fold_l_src xs
      { earliest := some t0, latest := some t0, timezone := tz0 } with
      h1 | ⟨c, hc, h1⟩
    · exact Or.inl (Option.some.inj (hla.symm.trans h1))
    · exact Or.inr ⟨c, hc, (Option.some.inj (hla.symm.trans h1)).symm⟩

/-- Full characterisation of getSessionTimeRange on a non-empty map:
both bounds are defined, they bound every member, each is attained, and
the reported timezone is the one stored with an entry attaining the
minimum. -/
theorem timeRangeSpecAux (m : CtMap) (hm : m ≠ []) :
    ∃ e la,
      (getSessionTimeRange m).earliest = some e ∧
      (getSessionTimeRange m).latest = some la ∧
      (∀ c ∈ m, e ≤ c.2.timestamp ∧ c.2.timestamp ≤ la) ∧
      (∃ c ∈ m, c.2.timestamp = e ∧
        c.2.timezone = (getSessionTimeRange m).timezone) ∧
      (∃ c ∈ m, c.2.timestamp = la) := by
  obtain ⟨x, xs, rfl⟩ : ∃ x xs, m = x :: xs := by
    cases m with
    | nil => exact absurd rfl hm
    | cons a b => exact ⟨a, b, rfl⟩
  have hrange : getSessionTimeRange (x :: xs) =
      List.foldl rangeStep
        { earliest := some x.2.timestamp, latest := some x.2.timestamp,
          timezone := x.2.timezone } xs := by
    unfold getSessionTimeRange
    rw [List.foldl_cons]
    rfl
  obtain ⟨e, la, he, hla, hee, hll, hbounds, hesrc, hlsrc⟩ :=
    fold_full xs x.2.timestamp x.2.timezone
  rw [hrange]
  refine ⟨e, la, he, hla, ?_, ?_, ?_⟩
  · intro c hc
    rcases List.mem_cons.mp hc with rfl | hc
    · exact ⟨hee, hll⟩
    · exact hbounds c hc
  · rcases hesrc with ⟨h1, h2⟩ | ⟨c, hc, h1, h2⟩
    · exact ⟨x, List.mem_cons_self .., h1.symm, h2.symm⟩
    · exact ⟨c, List.mem_cons_of_mem _ hc, h1, h2⟩
  · rcases hlsrc with h1 | ⟨c, hc, h1⟩
    · exact ⟨x, List.mem_cons_self .., h1.symm⟩
    · exact ⟨c, List.mem_cons_of_mem _ hc, h1⟩

/-- C6: getSessionTimeRange returns the minimum timestamp as earliest, the
maximum as latest, and the timezone stored with an entry attaining the
minimum; the empty mapping yields no range and the default timezone. -/
theorem c6_time_range_spec :
    getSessionTimeRange [] =
      { earliest := none, latest := none,
        timezone := ("America/Los_Angeles").toList } ∧
    ∀ m : CtMap, m ≠ [] →
      ∃ e la,
        (getSessionTimeRange m).earliest = some e ∧
        (getSessionTimeRange m).latest = some la ∧
        (∀ c ∈ m, e ≤ c.2.timestamp ∧ c.2.timestamp ≤ la) ∧
        (∃ c ∈ m, c.2.timestamp = e ∧
          c.2.timezone = (getSessionTimeRange m).timezone) ∧
        (∃ c ∈ m, c.2.timestamp = la) :=
  ⟨rfl, fun m hm => timeRangeSpecAux m hm⟩

/-- C6 witness at a concrete one-entry map. -/
theorem c6_witness :
    exMapC6 ≠ [] ∧
    ∃ e la,
      (getSessionTimeRange exMapC6).earliest = some e ∧
      (getSessionTimeRange exMapC6).latest = some la ∧
      (∀ c ∈ exMapC6, e ≤ c.2.timestamp ∧ c.2.timestamp ≤ la) ∧
      (∃ c ∈ exMapC6, c.2.timestamp = e ∧
        c.2.timezone = (getSessionTimeRange exMapC6).timezone) ∧
      (∃ c ∈ exMapC6, c.2.timestamp = la) :=
  ⟨by decide, c6_time_range_spec.2 exMapC6 (by decide)⟩

/-- C1 (corrected): for a session lacking both times whose commit
references resolve against the default repository (the working directory)
to a non-empty range, reconstructSessionTiming under the default
configuration returns the session with startTime the range minimum less
the 15-minute pre-buffer, endTime the range maximum plus the 5-minute
post-buffer and timezone the range's reported zone — but timingSource is
left unchanged from the input (the code never assigns the commits tag). -/
theorem c1_amended_commit_timing (w : GitWorld) (s : Session)
    (h1 : s.startTime = none) (h2 : s.endTime = none)
    (h3 : s.commits ≠ []) (h4 : w.cwd ≠ [])
    (h5 : getCommitTimestamps w.envOffMs s.commits (w.gitLog w.cwd) ≠ []) :
    ∃ e la,
      (getSessionTimeRange
        (getCommitTimestamps w.envOffMs s.commits (w.gitLog w.cwd))).earliest
          = some e ∧
      (getSessionTimeRange
        (getCommitTimestamps w.envOffMs s.commits (w.gitLog w.cwd))).latest
          = some la ∧
      (∀ c ∈ getCommitTimestamps w.envOffMs s.commits (w.gitLog w.cwd),
        e ≤ c.2.timestamp ∧ c.2.timestamp ≤ la) ∧
      (∃ c ∈ getCommitTimestamps w.envOffMs s.commits (w.gitLog w.cwd),
        c.2.timestamp = e ∧ c.2.timezone =
          (getSessionTimeRange
            (getCommitTimestamps w.envOffMs s.commits (w.gitLog w.cwd))).timezone) ∧
      (∃ c ∈ getCommitTimestamps w.envOffMs s.commits (w.gitLog w.cwd),
        c.2.timestamp = la) ∧
      reconstructSessionTiming w s {} =
        { s with
          startTime := some (e - 15 * 60 * 1000)
          endTime := some (la + 5 * 60 * 1000)
          timezone := (getSessionTimeRange
            (getCommitTimestamps w.envOffMs s.commits (w.gitLog w.cwd))).timezone } := by
  obtain ⟨e, la, he, hla, hbounds, hesrc, hlsrc⟩ :=
    timeRangeSpecAux (getCommitTimestamps w.envOffMs s.commits (w.gitLog w.cwd)) h5
  refine ⟨e, la, he, hla, hbounds, hesrc, hlsrc, ?_⟩
  unfold reconstructSessionTiming
  dsimp only
  simp only [Option.getD_none]
  rw [if_neg (by simp [h1, h2])]
  rw [if_pos ⟨h3, h4⟩]
  rw [if_pos h5]
  rw [he, hla]

/-- C1 counterexample: a concrete no-timing session with one resolvable
commit reference; the commit branch fires (startTime becomes defined) and
yet timingSource stays inferred, not commits, refuting the claim as
stated. -/
theorem c1_counterexample :
    exCommitSession.startTime = none ∧ exCommitSession.endTime = none ∧
    exCommitSession.commits ≠ [] ∧
    getCommitTimestamps exWorld.envOffMs exCommitSession.commits
      (exWorld.gitLog exWorld.cwd) ≠ [] ∧
    (reconstructSessionTiming exWorld exCommitSession {}).startTime.isSome
      = true ∧
    (reconstructSessionTiming exWorld exCommitSession {}).timingSource
      = inferredTag ∧
    inferredTag ≠ commitsTag := by
  decide

/-- C1 witness: the amended theorem instantiated at the concrete world and
session of the counterexample. -/
theorem c1_witness :
    ∃ e la,
      (getSessionTimeRange
        (getCommitTimestamps exWorld.envOffMs exCommitSession.commits
          (exWorld.gitLog exWorld.cwd))).earliest = some e ∧
      (getSessionTimeRange
        (getCommitTimestamps exWorld.envOffMs exCommitSession.commits
          (exWorld.gitLog exWorld.cwd))).latest = some la ∧
      (∀ c ∈ getCommitTimestamps exWorld.envOffMs exCommitSession.commits
          (exWorld.gitLog exWorld.cwd),
        e ≤ c.2.timestamp ∧ c.2.timestamp ≤ la) ∧
      (∃ c ∈ getCommitTimestamps exWorld.envOffMs exCommitSession.commits
          (exWorld.gitLog exWorld.cwd),
        c.2.timestamp = e ∧ c.2.timezone =
          (getSessionTimeRange
            (getCommitTimestamps exWorld.envOffMs exCommitSession.commits
              (exWorld.gitLog exWorld.cwd))).timezone) ∧
      (∃ c ∈ getCommitTimestamps exWorld.envOffMs exCommitSession.commits
          (exWorld.gitLog exWorld.cwd),
        c.2.timestamp = la) ∧
      reconstructSessionTiming exWorld exCommitSession {} =
        { exCommitSession with
          startTime := some (e - 15 * 60 * 1000)
          endTime := some (la + 5 * 60 * 1000)
          timezone := (getSessionTimeRange
            (getCommitTimestamps exWorld.envOffMs exCommitSession.commits
              (exWorld.gitLog exWorld.cwd))).timezone } :=
  c1_amended_commit_timing exWorld exCommitSession rfl rfl (by decide)
    (by decide) (by decide)

/- Section-extraction lemmas (C3). -/

theorem sbl_le (l : List Char) : sectionBodyLen l ≤ l.length := by
  induction l with
  | nil => simp [sectionBodyLen]
  | cons c rest ih =>
    unfold sectionBodyLen
    split
    · simp
    · simp only [List.length_cons]
      omega

theorem sbl_no_stop (l : List Char) :
    ∀ i, i < sectionBodyLen l → twoHashB (l.drop i) = false := by
  induction l with
  | nil => intro i h; simp [sectionBodyLen] at h
  | cons c rest ih =>
    intro i h
    unfold sectionBodyLen at h
    split at h
    · omega
    · rename_i hth
      cases i with
      | zero => simpa using hth
      | succ i' => simpa using ih i' (by omega)

theorem sbl_stop (l : List Char) :
    l.drop (sectionBodyLen l) = [] ∨
      twoHashB (l.drop (sectionBodyLen l)) = true := by
  induction l with
  | nil => left; rfl
  | cons c rest ih =>
    unfold sectionBodyLen
    split
    · rename_i hth
      right
      simpa using hth
    · have hdrop : (c :: rest).drop (1 + sectionBodyLen rest) =
          rest.drop (sectionBodyLen rest) := by
        rw [Nat.add_comm]
        rfl
      rw [hdrop]
      exact ih

theorem twoHashB_take (l : List Char) (m : Nat)
    (h : twoHashB (l.take m) = true) : twoHashB l = true := by
  match l, m with
  | [], _ => rw [List.take_nil] at h; exact h
  | [a], 0 => simp [twoHashB] at h
  | [a], m' + 1 => simp [twoHashB] at h
  | a :: b :: l2, 0 => simp [twoHashB] at h
  | a :: b :: l2, 1 => simp [twoHashB] at h
  | a :: b :: l2, m'' + 2 => simpa [twoHashB] using h

/-- Body-slice facts: the lazy body contains no lookahead stop, and the
text immediately after the returned match is a stop or the end. -/
theorem sectionSlice_facts (s : List Char) (hl : Nat) :
    (∀ i, hl ≤ i → i < (s.take (hl + sectionBodyLen (s.drop hl))).length →
      twoHashB ((s.take (hl + sectionBodyLen (s.drop hl))).drop i) = false) ∧
    (s.drop (s.take (hl + sectionBodyLen (s.drop hl))).length = [] ∨
      twoHashB (s.drop (s.take (hl + sectionBodyLen (s.drop hl))).length)
        = true) := by
  constructor
  · intro i hi hlen
    rw [List.length_take] at hlen
    cases hx : twoHashB ((s.take (hl + sectionBodyLen (s.drop hl))).drop i) with
    | false => rfl
    | true =>
      exfalso
      rw [List.drop_take] at hx
      have h2 : twoHashB (s.drop i) = true := twoHashB_take _ _ hx
      have h3 : (s.drop hl).drop (i - hl) = s.drop i := by
        rw [List.drop_drop]
        congr 1
        omega
      rw [← h3] at h2
      have h5 : i < hl + sectionBodyLen (s.drop hl) :=
        lt_of_lt_of_le hlen (min_le_left _ _)
      have h4 : i - hl < sectionBodyLen (s.drop hl) := by omega
      rw [sbl_no_stop (s.drop hl) (i - hl) h4] at h2
      exact Bool.noConfusion h2
  · rw [List.length_take]
    rcases le_or_lt (hl + sectionBodyLen (s.drop hl)) s.length with hle | hlt
    · rw [min_eq_left hle]
      have h3 : s.drop (hl + sectionBodyLen (s.drop hl)) =
          (s.drop hl).drop (sectionBodyLen (s.drop hl)) :=
        (List.drop_drop _ _ _).symm
      rw [h3]
      exact sbl_stop (s.drop hl)
    · rw [min_eq_right (le_of_lt hlt)]
      left
      exact List.drop_length _

theorem extractSectionAux_none (name : List Char) : ∀ l,
    extractSectionAux name l = none →
    ∀ p, headMatchLen name (l.drop p) = none := by
  intro l
  induction l with
  | nil =>
    intro _ p
    rw [List.drop_nil]
    rfl
  | cons c rest ih =>
    intro h p
    unfold extractSectionAux at h
    cases hm : headMatchLen name (c :: rest) with
    | some hl => rw [hm] at h; simp at h
    | none =>
      rw [hm] at h
      cases p with
      | zero => exact hm
      | succ p' => exact ih h p'

theorem extractSectionAux_some (name : List Char) : ∀ l r,
    extractSectionAux name l = some r →
    ∃ p hl, headMatchLen name (l.drop p) = some hl ∧
      (∀ q, q < p → headMatchLen name (l.drop q) = none) ∧
      r = (l.drop p).take (hl + sectionBodyLen ((l.drop p).drop hl)) ∧
      (∀ i, hl ≤ i → i < r.length → twoHashB (r.drop i) = false) ∧
      ((l.drop p).drop r.length = [] ∨
        twoHashB ((l.drop p).drop r.length) = true) := by
  intro l
  induction l with
  | nil => intro r h; simp [extractSectionAux] at h
  | cons c rest ih =>
    intro r h
    unfold extractSectionAux at h
    cases hm : headMatchLen name (c :: rest) with
    | some hl =>
      rw [hm] at h
      simp only [Option.some.injEq] at h
      subst h
      refine ⟨0, hl, hm, by intro q hq; omega, rfl, ?_, ?_⟩
      · exact (sectionSlice_facts (c :: rest) hl).1
      · exact (sectionSlice_facts (c :: rest) hl).2
    | none =>
      rw [hm] at h
      obtain ⟨p, hl, h1, h2, h3, h4, h5⟩ := ih r h
      refine ⟨p + 1, hl, h1, ?_, h3, h4, h5⟩
      intro q hq
      cases q with
      | zero => exact hm
      | succ q' => exact h2 q' (by omega)

/-- C3 (corrected): extractSection returns, at the first position where
the section-heading pattern (three hashes, whitespace, the name
case-insensitively) matches, the heading plus the lazy body, where the
body ends immediately before the next occurrence of two consecutive hash
characters — which includes level-4-and-deeper headings and inline
hash-pairs, so nested deeper headings are NOT included in the body — or at
the end of the text; when the pattern matches nowhere the result is
not-found. -/
theorem c3_amended_section_bounds (content name : List Char) :
    (extractSection content name = none →
      ∀ p, headMatchLen name (content.drop p) = none) ∧
    ∀ r, extractSection content name = some r →
      ∃ p hl, headMatchLen name (content.drop p) = some hl ∧
        (∀ q, q < p → headMatchLen name (content.drop q) = none) ∧
        r = (content.drop p).take
          (hl + sectionBodyLen ((content.drop p).drop hl)) ∧
        (∀ i, hl ≤ i → i < r.length → twoHashB (r.drop i) = false) ∧
        ((content.drop p).drop r.length = [] ∨
          twoHashB ((content.drop p).drop r.length) = true) :=
  ⟨fun h p => extractSectionAux_none name content h p,
   fun r h => extractSectionAux_some name content r h⟩

/-- C3 counterexample: on a section containing a level-4 heading, the
returned body stops before that heading (it is not included), refuting the
claim that nested deeper headings are included and that only level-2 or
level-3 headings end the section. -/
theorem c3_counterexample :
    extractSection docSec learningsName = some secResC3 ∧
    isInfixB (("####").toList) docSec = true ∧
    isInfixB (("####").toList) secResC3 = false := by
  decide

/-- C3 witness: the amended theorem instantiated at the counterexample
document. -/
theorem c3_witness :
    ∃ p hl, headMatchLen learningsName (docSec.drop p) = some hl ∧
      (∀ q, q < p → headMatchLen learningsName (docSec.drop q) = none) ∧
      secResC3 = (docSec.drop p).take
        (hl + sectionBodyLen ((docSec.drop p).drop hl)) ∧
      (∀ i, hl ≤ i → i < secResC3.length →
        twoHashB (secResC3.drop i) = false) ∧
      ((docSec.drop p).drop secResC3.length = [] ∨
        twoHashB ((docSec.drop p).drop secResC3.length) = true) :=
  (c3_amended_section_bounds docSec learningsName).2 secResC3 (by decide)

/- Splitter lemmas (C4). -/

theorem andE {a b : Bool} (h : (a && b) = true) : a = true ∧ b = true := by
  simp only [Bool.and_eq_true] at h
  exact h

theorem isPrefixOf_len (p : List Char) : ∀ l, p.isPrefixOf l = true →
    p.length ≤ l.length := by
  induction p with
  | nil => intro l _; simp
  | cons a as ih =>
    intro l h
    cases l with
    | nil => simp [List.isPrefixOf] at h
    | cons b bs =>
      simp only [List.isPrefixOf, Bool.and_eq_true] at h
      simp only [List.length_cons]
      exact Nat.succ_le_succ (ih bs h.2)

theorem isPrefixOf_app (p : List Char) : ∀ l t, p.isPrefixOf l = true →
    p.isPrefixOf (l ++ t) = true := by
  induction p with
  | nil => intro l t _; simp [List.isPrefixOf]
  | cons a as ih =>
    intro l t h
    cases l with
    | nil => simp [List.isPrefixOf] at h
    | cons b bs =>
      simp only [List.cons_append, List.isPrefixOf, Bool.and_eq_true] at h ⊢
      exact ⟨h.1, ih bs t h.2⟩

theorem isPrefixOf_app_trunc (p : List Char) (c : Char) (hc : ¬ c ∈ p) :
    ∀ a b, p.isPrefixOf (a ++ c :: b) = true → p.isPrefixOf a = true := by
  induction p with
  | nil => intro a b _; simp [List.isPrefixOf]
  | cons q p' ih =>
    intro a b h
    cases a with
    | nil =>
      simp only [List.nil_append, List.isPrefixOf, Bool.and_eq_true,
        beq_iff_eq] at h
      cases h.1
      exact absurd (List.mem_cons_self ..) hc
    | cons x a' =>
      simp only [List.cons_append, List.isPrefixOf, Bool.and_eq_true] at h ⊢
      exact ⟨h.1, ih (fun hx => hc (List.mem_cons_of_mem _ hx)) a' b h.2⟩

theorem startsDigit_app (l t : List Char) (h : startsDigit l = true) :
    startsDigit (l ++ t) = true := by
  cases l with
  | nil => exact absurd h (by decide)
  | cons c rest => simpa [startsDigit] using h

theorem startsDigit_trunc (a b : List Char)
    (h : startsDigit (a ++ '#' :: b) = true) : startsDigit a = true := by
  cases a with
  | nil =>
    simp only [List.nil_append, startsDigit] at h
    exact absurd h (by decide)
  | cons c rest => simpa [startsDigit] using h

theorem wsPlusThen_app (k : List Char → Bool) (t : List Char)
    (hk : ∀ r, k r = true → k (r ++ t) = true) :
    ∀ l, wsPlusThen k l = true → wsPlusThen k (l ++ t) = true := by
  intro l
  induction l with
  | nil => intro h; simp [wsPlusThen] at h
  | cons c rest ih =>
    intro h
    simp only [List.cons_append, wsPlusThen, Bool.and_eq_true,
      Bool.or_eq_true] at h ⊢
    obtain ⟨hws, hor⟩ := h
    exact ⟨hws, hor.elim (fun h0 => Or.inl (hk rest h0))
      (fun hr => Or.inr (ih hr))⟩

theorem wsPlusThen_trunc (k : List Char → Bool) (b : List Char)
    (hk : ∀ a, k (a ++ '#' :: b) = true → k a = true) :
    ∀ a, wsPlusThen k (a ++ '#' :: b) = true → wsPlusThen k a = true := by
  intro a
  induction a with
  | nil =>
    intro h
    simp only [List.nil_append, wsPlusThen, Bool.and_eq_true] at h
    exact absurd h.1 (by decide)
  | cons c rest ih =>
    intro h
    simp only [List.cons_append, wsPlusThen, Bool.and_eq_true,
      Bool.or_eq_true] at h ⊢
    obtain ⟨hws, hor⟩ := h
    exact ⟨hws, hor.elim (fun h0 => Or.inl (hk rest h0))
      (fun hr => Or.inr (ih hr))⟩

theorem sessionTail_app (r t : List Char) (h : sessionTail r = true) :
    sessionTail (r ++ t) = true := by
  unfold sessionTail at h ⊢
  obtain ⟨h1, h2⟩ := andE h
  have hlen : 7 ≤ r.length := by simpa using isPrefixOf_len sessionKw r h1
  rw [Bool.and_eq_true]
  constructor
  · exact isPrefixOf_app _ _ _ h1
  · rw [List.drop_append_of_le_length hlen]
    exact wsPlusThen_app startsDigit t (fun r' h' => startsDigit_app r' t h') _ h2

theorem sessionTail_trunc (a b : List Char)
    (h : sessionTail (a ++ '#' :: b) = true) : sessionTail a = true := by
  unfold sessionTail at h ⊢
  obtain ⟨h1, h2⟩ := andE h
  have hp : sessionKw.isPrefixOf a = true :=
    isPrefixOf_app_trunc sessionKw '#' (by decide) a b h1
  have hlen : 7 ≤ a.length := by simpa using isPrefixOf_len sessionKw a hp
  rw [List.drop_append_of_le_length hlen] at h2
  rw [Bool.and_eq_true]
  exact ⟨hp, wsPlusThen_trunc startsDigit b
    (fun a' h' => startsDigit_trunc a' b h') _ h2⟩

theorem matchSessionPat_shape (l : List Char)
    (h : matchSessionPat l = true) : ∃ rest, l = '#' :: '#' :: rest := by
  match l, h with
  | [], h => exact absurd h (by decide)
  | [a], h => exact absurd h (by simp [matchSessionPat])
  | c1 :: c2 :: rest, h =>
    simp only [matchSessionPat, Bool.and_eq_true, decide_eq_true_eq] at h
    exact ⟨rest, by rw [h.1.1, h.1.2]⟩

theorem matchSessionPat_app (l t : List Char)
    (h : matchSessionPat l = true) : matchSessionPat (l ++ t) = true := by
  obtain ⟨rest, rfl⟩ := matchSessionPat_shape l h
  have h2 : wsPlusThen sessionTail rest = true := by
    simpa [matchSessionPat] using h
  show matchSessionPat ('#' :: '#' :: (rest ++ t)) = true
  simp only [matchSessionPat, Bool.and_eq_true, decide_eq_true_eq]
  exact ⟨⟨trivial, trivial⟩,
    wsPlusThen_app sessionTail t (fun r hr => sessionTail_app r t hr) rest h2⟩


theorem matchSessionPat_trunc (a b : List Char) (hlen : 2 ≤ a.length)
    (h : matchSessionPat (a ++ '#' :: b) = true) :
    matchSessionPat a = true := by
  cases a with
  | nil => simp at hlen
  | cons c1 a1 =>
    cases a1 with
    | nil => simp at hlen
    | cons c2 a' =>
      simp only [List.cons_append, matchSessionPat, Bool.and_eq_true,
        decide_eq_true_eq] at h ⊢
      obtain ⟨⟨e1, e2⟩, h3⟩ := h
      exact ⟨⟨e1, e2⟩, wsPlusThen_trunc sessionTail b
        (fun a'' h'' => sessionTail_trunc a'' b h'') a' h3⟩

theorem headPositions_mem (s : List Char) (p : Nat) :
    p ∈ headPositions s ↔ p < s.length ∧ sessionHeadAt s p = true := by
  unfold headPositions
  rw [List.mem_filter, List.mem_range]

theorem headPositions_sorted (s : List Char) :
    (headPositions s).Pairwise (· < ·) :=
  (List.pairwise_lt_range s.length).filter _

theorem hasHead_of_match (l : List Char) (h : matchSessionPat l = true)
    (hne : 0 < l.length) : hasSessionHead l = true := by
  unfold hasSessionHead
  rw [List.any_eq_true]
  refine ⟨0, List.mem_range.mpr hne, ?_⟩
  unfold sessionHeadAt
  simpa [lineStartAt] using h

theorem lineStartAt_succ (s : List Char) (q : Nat) :
    lineStartAt s (q + 1) =
      (match s.get? q with
       | some c => lineTerm c
       | none => false) := rfl

theorem head_gap (s : List Char) (p p' : Nat)
    (hp : sessionHeadAt s p = true) (hp' : sessionHeadAt s p' = true)
    (hlt : p < p') : p + 3 ≤ p' := by
  have hm := (andE hp).2
  obtain ⟨rest, hrest⟩ := matchSessionPat_shape _ hm
  have h0 : s.get? p = some '#' := by
    rw [List.get?_eq_getElem?]
    have hh : (s.drop p)[0]? = some '#' := by rw [hrest]; simp
    rwa [List.getElem?_drop, Nat.add_zero] at hh
  have h1 : s.get? (p + 1) = some '#' := by
    rw [List.get?_eq_getElem?]
    have hh : (s.drop p)[1]? = some '#' := by rw [hrest]; simp
    rwa [List.getElem?_drop] at hh
  by_contra hcon
  have hcase : p' = p + 1 ∨ p' = p + 2 := by omega
  rcases hcase with rfl | rfl
  · have hls : lineStartAt s (p + 1) = true := (andE hp').1
    rw [lineStartAt_succ, h0] at hls
    exact absurd hls (by decide)
  · have hls : lineStartAt s ((p + 1) + 1) = true := (andE hp').1
    rw [lineStartAt_succ, h1] at hls
    exact absurd hls (by decide)

theorem head_take_transfer (s : List Char) (n q : Nat)
    (h : sessionHeadAt (s.take n) q = true) : sessionHeadAt s q = true := by
  unfold sessionHeadAt at h ⊢
  obtain ⟨h1, h2⟩ := andE h
  rw [Bool.and_eq_true]
  constructor
  · cases q with
    | zero => rfl
    | succ i =>
      have h1' :
          (match (s.take n).get? i with
           | some c => lineTerm c
           | none => false) = true := by
        rw [← lineStartAt_succ]
        exact h1
      show lineStartAt s (i + 1) = true
      rw [lineStartAt_succ]
      rw [List.get?_eq_getElem?] at h1' ⊢
      rw [List.getElem?_take] at h1'
      by_cases hin : i < n
      · rw [if_pos hin] at h1'
        exact h1'
      · rw [if_neg hin] at h1'
        exact absurd h1' (by decide)
  · rw [List.drop_take] at h2
    have hdec : s.drop q =
        (s.drop q).take (n - q) ++ (s.drop q).drop (n - q) :=
      (List.take_append_drop _ _).symm
    rw [hdec]
    exact matchSessionPat_app _ _ h2

theorem preamble_no_head (s : List Char) (n : Nat)
    (hq : ∀ q, q < n → sessionHeadAt s q = false) :
    hasSessionHead (s.take n) = false := by
  cases hx : hasSessionHead (s.take n) with
  | false => rfl
  | true =>
    exfalso
    unfold hasSessionHead at hx
    rw [List.any_eq_true] at hx
    obtain ⟨q, hqmem, hqh⟩ := hx
    have hql : q < n :=
      lt_of_lt_of_le (List.mem_range.mp hqmem)
        (by rw [List.length_take]; exact min_le_left _ _)
    have htr := head_take_transfer s n q hqh
    rw [hq q hql] at htr
    exact Bool.noConfusion htr

theorem segs_ne_nil (s : List Char) (start : Nat) (cuts : List Nat) :
    segmentsAux s start cuts ≠ [] := by
  cases cuts <;> simp [segmentsAux]

theorem part_match (s : List Char) (p p' : Nat)
    (hp : sessionHeadAt s p = true) (hp' : sessionHeadAt s p' = true)
    (hlt : p < p') (hle : p' ≤ s.length) :
    matchSessionPat ((s.drop p).take (p' - p)) = true := by
  have hm : matchSessionPat (s.drop p) = true := (andE hp).2
  have hm' : matchSessionPat (s.drop p') = true := (andE hp').2
  obtain ⟨rest', hrest'⟩ := matchSessionPat_shape _ hm'
  have hgap : p + 3 ≤ p' := head_gap s p p' hp hp' hlt
  have hdecomp : s.drop p = (s.drop p).take (p' - p) ++ s.drop p' := by
    conv_lhs => rw [← List.take_append_drop (p' - p) (s.drop p)]
    congr 1
    rw [List.drop_drop]
    congr 1
    omega
  have hlen2 : 2 ≤ ((s.drop p).take (p' - p)).length := by
    rw [List.length_take, List.length_drop]
    refine le_min ?_ ?_ <;> omega
  apply matchSessionPat_trunc _ ('#' :: rest') hlen2
  rw [hrest'] at hdecomp
  rw [← hdecomp]
  exact hm

theorem segs_all_head (s : List Char) :
    ∀ (cuts : List Nat) (start : Nat),
      sessionHeadAt s start = true → start < s.length →
      List.Chain (· < ·) start cuts →
      (∀ p ∈ cuts, sessionHeadAt s p = true ∧ p < s.length) →
      ∀ part ∈ segmentsAux s start cuts, hasSessionHead part = true := by
  intro cuts
  induction cuts with
  | nil =>
    intro start hstart hslen _ _ part hpart
    simp only [segmentsAux, List.mem_singleton] at hpart
    subst hpart
    apply hasHead_of_match
    · exact (andE hstart).2
    · rw [List.length_drop]; omega
  | cons p rest ih =>
    intro start hstart hslen hchain hmem part hpart
    simp only [segmentsAux, List.mem_cons] at hpart
    obtain ⟨hphead, hplen⟩ := hmem p (List.mem_cons_self ..)
    have hlt : start < p := (List.chain_cons.mp hchain).1
    rcases hpart with rfl | hpart
    · have hgap : start + 3 ≤ p := head_gap s start p hstart hphead hlt
      apply hasHead_of_match
      · exact part_match s start p hstart hphead hlt (le_of_lt hplen)
      · rw [List.length_take, List.length_drop]
        refine lt_min ?_ ?_ <;> omega
    · exact ih p hphead hplen (List.chain_cons.mp hchain).2
        (fun q hq => hmem q (List.mem_cons_of_mem _ hq)) part hpart

/-- splitIntoSessions equals the spec-side segmentation: the document is
split at every session-header line with the heading attached to the block
that follows, the preamble before the first heading is dropped, and a
document with no heading yields no blocks. -/
theorem split_eq_segments (s : List Char) :
    splitIntoSessions s = sessionSegments s := by
  unfold splitIntoSessions sessionSegments
  cases hH : headPositions s with
  | nil =>
    have hcut : cutPoints s = [] := by unfold cutPoints; rw [hH]; rfl
    rw [hcut]
    have hs : hasSessionHead s = false := by
      cases hx : hasSessionHead s with
      | false => rfl
      | true =>
        exfalso
        unfold hasSessionHead at hx
        rw [List.any_eq_true] at hx
        obtain ⟨q, hqmem, hqh⟩ := hx
        have hq : q ∈ headPositions s :=
          (headPositions_mem s q).mpr ⟨List.mem_range.mp hqmem, hqh⟩
        rw [hH] at hq
        exact absurd hq (List.not_mem_nil q)
    simp [segmentsAux, List.filter_cons, hs]
  | cons p0 rest =>
    have hsorted : (p0 :: rest).Pairwise (· < ·) := by
      have hh := headPositions_sorted s
      rwa [hH] at hh
    have hrestpos : ∀ q ∈ rest, p0 < q :=
      fun q hq => (List.pairwise_cons.mp hsorted).1 q hq
    have hmemfacts : ∀ q ∈ p0 :: rest,
        sessionHeadAt s q = true ∧ q < s.length := by
      intro q hq
      have hq2 : q ∈ headPositions s := by rw [hH]; exact hq
      have hq3 := (headPositions_mem s q).mp hq2
      exact ⟨hq3.2, hq3.1⟩
    have hchain : List.Chain (· < ·) p0 rest :=
      List.chain_iff_pairwise.mpr hsorted
    have hallheads : ∀ part ∈ segmentsAux s p0 rest,
        hasSessionHead part = true :=
      segs_all_head s rest p0 (hmemfacts p0 (List.mem_cons_self ..)).1
        (hmemfacts p0 (List.mem_cons_self ..)).2 hchain
        (fun p hp => hmemfacts p (List.mem_cons_of_mem _ hp))
    by_cases hp0 : p0 = 0
    · subst hp0
      have hcut : cutPoints s = rest := by
        unfold cutPoints
        rw [hH, List.filter_cons]
        simp only [bne_self_eq_false, Bool.false_eq_true, if_false]
        apply List.filter_eq_self.mpr
        intro q hq
        have := hrestpos q hq
        simp only [bne_iff_ne, ne_eq]
        omega
      rw [hcut]
      dsimp only
      rw [List.filter_eq_self.mpr hallheads]
      rw [if_pos (by simpa [List.length_pos] using segs_ne_nil s 0 rest)]
    · have hcut : cutPoints s = p0 :: rest := by
        unfold cutPoints
        rw [hH]
        apply List.filter_eq_self.mpr
        intro q hq
        rcases List.mem_cons.mp hq with rfl | hq'
        · simpa [bne_iff_ne] using hp0
        · have := hrestpos q hq'
          simp only [bne_iff_ne, ne_eq]
          omega
      rw [hcut]
      dsimp only
      have hparts : segmentsAux s 0 (p0 :: rest) =
          (s.take p0) :: segmentsAux s p0 rest := by
        simp [segmentsAux]
      rw [hparts, List.filter_cons]
      have hpre : hasSessionHead (s.take p0) = false := by
        apply preamble_no_head
        intro q hql
        cases hx : sessionHeadAt s q with
        | false => rfl
        | true =>
          exfalso
          have hqlen : q < s.length :=
            lt_trans hql (hmemfacts p0 (List.mem_cons_self ..)).2
          have hqmem : q ∈ headPositions s :=
            (headPositions_mem s q).mpr ⟨hqlen, hx⟩
          rw [hH] at hqmem
          rcases List.mem_cons.mp hqmem with rfl | hq'
          · omega
          · have := hrestpos q hq'
            omega
      rw [hpre]
      simp only [Bool.false_eq_true, if_false]
      rw [List.filter_eq_self.mpr hallheads]
      rw [if_pos (by simpa [List.length_pos] using segs_ne_nil s p0 rest)]

/-- C4: splitIntoSessions realises the spec-side segmentation (blocks in
order of appearance, each heading line attached to the block that follows
it, preamble dropped), and a document containing no session-header match
parses to the empty list of sessions. -/
theorem c4_split_sessions_spec (content : List Char) :
    splitIntoSessions content = sessionSegments content ∧
    (headPositions content = [] →
      ∀ (off : Int) (fp : List Char), parseJournal off fp content = []) := by
  refine ⟨split_eq_segments content, ?_⟩
  intro hH off fp
  have h0 : splitIntoSessions content = [] := by
    rw [split_eq_segments content]
    unfold sessionSegments
    rw [hH]
  unfold parseJournal
  rw [h0]
  rfl

/-- C4 witness at a concrete headingless document. -/
theorem c4_witness :
    headPositions docEmpty = [] ∧
    parseJournal 0 (("n.md").toList) docEmpty = [] :=
  ⟨by decide,
   (c4_split_sessions_spec docEmpty).2 (by decide) 0 (("n.md").toList)⟩

end FlowLogger
